import Mathlib

/-!
Shallow embedding of `zallet/src/components/safe_environment.rs`
(the `SafeEnvironment` source for config-rs).

Rust strings are modelled as `List Char` (`Str`).  Rust's `to_lowercase`
is modelled by ASCII-range lowercasing (`lowerChar`), which agrees with
Rust on all ASCII text (environment-variable names and the values used
throughout the spec).  `OsString` is modelled by `OsStr`, which is either
valid Unicode text or an opaque non-Unicode blob.  `config::Map` is
modelled by an association list with replace-or-append insertion.
IEEE-754 values are not needed by any claim, so `ValueKind.float`
records the raw string that parsed as an `f64`; which strings parse is
modelled faithfully after Rust's `f64::from_str` grammar.
-/

namespace SafeEnv

abbrev Str := List Char

/-- ASCII-range lowercasing of one character (model of Rust char lowercasing
restricted to ASCII). -/
def lowerChar (c : Char) : Char :=
  if 65 ≤ c.toNat && c.toNat ≤ 90 then Char.ofNat (c.toNat + 32) else c

/-- Model of Rust `str::to_lowercase` (ASCII range). -/
def lowerStr (s : Str) : Str := s.map lowerChar

/-- ASCII decimal digit test (Rust's digit check inside integer/float parsing). -/
def isDigitChar (c : Char) : Bool := 48 ≤ c.toNat && c.toNat ≤ 57

/-- Value of a list of ASCII digits, most significant first. -/
def digitsToNat (ds : Str) : Nat :=
  ds.foldl (fun a c => a * 10 + (c.toNat - 48)) 0

/-- Model of Rust `str::parse::<bool>`: exactly the strings `true` / `false`. -/
def parse_bool (s : Str) : Option Bool :=
  if s = [ 't', 'r', 'u', 'e'] then some true
  else if s = ['f', 'a', 'l', 's', 'e'] then some false
  else none

/-- Helper for `parse_i64`: parse an unsigned run of digits with the i64
range check for the given sign. -/
def i64OfDigits (neg : Bool) (digits : Str) : Option Int :=
  if digits = [] then none
  else if digits.all isDigitChar then
    let n := digitsToNat digits
    if neg then
      if n ≤ 2 ^ 63 then some (-(n : Int)) else none
    else
      if n ≤ 2 ^ 63 - 1 then some (n : Int) else none
  else none

/-- Model of Rust `str::parse::<i64>`: optional sign, one or more ASCII
digits, within the 64-bit signed range. -/
def parse_i64 (s : Str) : Option Int :=
  match s with
  | [] => none
  | c :: r =>
    if c = '+' then i64OfDigits false r
    else if c = '-' then i64OfDigits true r
    else i64OfDigits false (c :: r)

/-- Split the string at the first occurrence of the exponent marker
(the input is already lowercased, so only 'e' needs to be found). -/
def splitAtExp : Str → Str × Option Str
  | [] => ([], none)
  | c :: rest =>
    if c = 'e' then ([], some rest)
    else
      let p := splitAtExp rest
      (c :: p.1, p.2)

/-- Mantissa grammar of Rust `f64::from_str`:
`Digit+ '.'? Digit*` or `'.' Digit+`. -/
def f64Mantissa (t : Str) : Bool :=
  let intPart := t.takeWhile isDigitChar
  let rest := t.dropWhile isDigitChar
  match rest with
  | [] => !intPart.isEmpty
  | '.' :: frac => frac.all isDigitChar && (!intPart.isEmpty || !frac.isEmpty)
  | _ => false

/-- Exponent grammar of Rust `f64::from_str`: optional sign then `Digit+`. -/
def f64Exponent (t : Str) : Bool :=
  match t with
  | '+' :: r => !r.isEmpty && r.all isDigitChar
  | '-' :: r => !r.isEmpty && r.all isDigitChar
  | _ => !t.isEmpty && t.all isDigitChar

/-- Whether Rust `str::parse::<f64>` succeeds on the string
(`Sign? ('inf' | 'infinity' | 'nan' | Number)`, case-insensitive).
The IEEE-754 value itself is not modelled; no claim depends on it. -/
def f64Parseable (s : Str) : Bool :=
  let t := lowerStr s
  let t := match t with
    | '+' :: r => r
    | '-' :: r => r
    | _ => t
  if t = ['i', 'n', 'f'] ∨ t = ['i', 'n', 'f', 'i', 'n', 'i', 't', 'y'] ∨
      t = ['n', 'a', 'n'] then true
  else
    match splitAtExp t with
    | (mant, none) => f64Mantissa mant
    | (mant, some ex) => f64Mantissa mant && f64Exponent ex

/-- Fuel-driven scanner for `replaceStr`.  Each step consumes at least one
character, so fuel `s.length` always suffices; structural recursion on the
fuel keeps the function kernel-reducible. -/
def replaceGo (pat rep : Str) : Nat → Str → Str
  | _, [] => []
  | 0, s => s
  | fuel + 1, c :: rest =>
    if pat.isPrefixOf (c :: rest) ∧ pat ≠ [] then
      rep ++ replaceGo pat rep fuel (rest.drop (pat.length - 1))
    else
      c :: replaceGo pat rep fuel rest

/-- Model of Rust `str::replace` for a non-empty pattern: left-to-right,
non-overlapping matches replaced by `rep`.  (The code only calls this
under a non-emptiness guard; an empty pattern replaces nothing here.) -/
def replaceStr (pat rep s : Str) : Str :=
  replaceGo pat rep s.length s

/-- Fuel-driven scanner for `splitStr` (same fuel discipline as
`replaceGo`). -/
def splitGo (pat : Str) : Nat → Str → List Str
  | _, [] => [[]]
  | 0, s => [s]
  | fuel + 1, c :: rest =>
    if pat.isPrefixOf (c :: rest) ∧ pat ≠ [] then
      [] :: splitGo pat fuel (rest.drop (pat.length - 1))
    else
      match splitGo pat fuel rest with
      | [] => [[c]]
      | piece :: pieces => (c :: piece) :: pieces

/-- Model of Rust `str::split`: pieces between left-to-right
non-overlapping matches of a non-empty pattern; for an empty pattern Rust
splits at every character boundary, with leading and trailing empty
pieces. -/
def splitStr (pat s : Str) : List Str :=
  if pat = [] then [] :: (s.map (fun c => [c]) ++ [[]])
  else splitGo pat s.length s

/-- Model of `OsString`: either valid Unicode text or an opaque
non-Unicode byte string (distinguished by a tag). -/
inductive OsStr where
  | unicode (s : Str)
  | nonUnicode (tag : Nat)
deriving DecidableEq

/-- Model of `OsStr::to_str`: succeeds exactly on valid Unicode. -/
def OsStr.to_str : OsStr → Option Str
  | .unicode s => some s
  | .nonUnicode _ => none

mutual
/-- Model of `config::Value`: an origin tag plus a kind. -/
inductive Value where
  | mk (origin : Option Str) (kind : ValueKind)

/-- Model of `config::ValueKind` (the variants this code produces).
`float` records the raw string accepted by the f64 grammar. -/
inductive ValueKind where
  | boolean (b : Bool)
  | i64 (n : Int)
  | float (raw : Str)
  | string (s : Str)
  | array (vs : List Value)
end

/-- Replace-or-append insertion into an association list (model of
`Map::insert`: one binding per key). -/
def mapInsert (k : Str) (v : α) : List (Str × α) → List (Str × α)
  | [] => [(k, v)]
  | (k2, v2) :: rest => if k2 = k then (k, v) :: rest else (k2, v2) :: mapInsert k v rest

/-- The `SafeEnvironment` struct. -/
structure SafeEnvironment where
  /-- Rust field `prefix`: prefix to filter environment variables. -/
  pfx : Str
  /-- Separator for nested keys. -/
  separator : Str
  /-- Prefix separator. -/
  prefix_separator : Str
  /-- Whether to try parsing values as primitives. -/
  try_parsing : Bool
  /-- List separator for comma-separated values. -/
  list_separator : Option Str
  /-- Keys that should be parsed as lists. -/
  list_parse_keys : Option (List Str)
  /-- Pre-filtered environment variables. -/
  filtered_env : List (Str × Str)

/-- Model of `config::ConfigError` (never constructed by this code). -/
inductive ConfigError where
  | message (msg : Str)

/-- The filtering loop body of `with_prefix_and_filter`: one raw
environment entry is Unicode-checked, prefix-checked, filtered, and then
inserted (or skipped). -/
def filterStep (p : Str) (filter_fn : Str → Bool)
    (m : List (Str × Str)) (kv : OsStr × OsStr) : List (Str × Str) :=
  match kv.1.to_str with
  | some key_str =>
    if (p ++ ['_']).isPrefixOf key_str then
      if filter_fn (key_str.drop (p.length + 1)) then
        match kv.2.to_str with
        | some value_str => mapInsert key_str value_str m
        | none => m
      else m
    else m
  | none => m

/-- Model of `SafeEnvironment::with_prefix_and_filter`.  The single
atomic snapshot `env::vars_os()` is passed in as the list `envVars`. -/
def with_prefix_and_filter (envVars : List (OsStr × OsStr))
    (p : Str) (filter_fn : Str → Bool) : Except ConfigError SafeEnvironment :=
  Except.ok
    { pfx := p
      separator := ['_', '_']
      prefix_separator := ['_']
      try_parsing := true
      list_separator := some [',']
      list_parse_keys := none
      filtered_env := envVars.foldl (filterStep p filter_fn) [] }

/-- Builder `SafeEnvironment::separator` (renamed: `separator` is the field). -/
def SafeEnvironment.set_separator (s : SafeEnvironment) (sep : Str) : SafeEnvironment :=
  { s with separator := sep }

/-- Builder `SafeEnvironment::prefix_separator` (renamed: it is the field). -/
def SafeEnvironment.set_prefix_separator (s : SafeEnvironment) (sep : Str) : SafeEnvironment :=
  { s with prefix_separator := sep }

/-- Builder `SafeEnvironment::try_parsing` (renamed: it is the field). -/
def SafeEnvironment.set_try_parsing (s : SafeEnvironment) (b : Bool) : SafeEnvironment :=
  { s with try_parsing := b }

/-- Builder `SafeEnvironment::list_separator` (renamed: it is the field). -/
def SafeEnvironment.set_list_separator (s : SafeEnvironment) (sep : Str) : SafeEnvironment :=
  { s with list_separator := some sep }

/-- Builder `SafeEnvironment::with_list_parse_key`. -/
def SafeEnvironment.with_list_parse_key (s : SafeEnvironment) (key : Str) : SafeEnvironment :=
  { s with list_parse_keys := some (s.list_parse_keys.getD [] ++ [key]) }

/-- The provenance string `"the environment"`. -/
def uri : Str :=
  ['t', 'h', 'e', ' ', 'e', 'n', 'v', 'i', 'r', 'o', 'n', 'm', 'e', 'n', 't']

/-- Key normalization inside `collect`: lower-case, strip
`lower(prefix) + prefix_separator` when present, then replace the key
separator by `.` when the separator is non-empty. -/
def processKey (s : SafeEnvironment) (key : Str) : Str :=
  let pk := lowerStr key
  let pat := lowerStr s.pfx ++ s.prefix_separator
  let pk := if pat.isPrefixOf pk then pk.drop pat.length else pk
  if s.separator.isEmpty then pk else replaceStr s.separator ['.'] pk

/-- The list-handling tail of the inference (reached only after boolean,
i64 and f64 parsing all failed): split the value when a list separator is
configured, a list-parse key-set is configured and the processed key is
in the set; otherwise keep the value as one string. -/
def listBranch (sepOpt : Option Str) (keysOpt : Option (List Str))
    (processed_key value : Str) : ValueKind :=
  match sepOpt, keysOpt with
  | some sep, some keys =>
    if keys.contains processed_key then
      ValueKind.array
        ((splitStr sep value).map fun piece =>
          Value.mk (some uri) (ValueKind.string piece))
    else ValueKind.string value
  | some _, none => ValueKind.string value
  | none, _ => ValueKind.string value

/-- Typed-value inference inside `collect`: boolean, then i64, then f64,
then (opt-in, per processed key) list, else string; everything is a
string when `try_parsing` is off. -/
def inferValue (s : SafeEnvironment) (processed_key value : Str) : ValueKind :=
  if s.try_parsing then
    match parse_bool (lowerStr value) with
    | some parsed => ValueKind.boolean parsed
    | none =>
      match parse_i64 value with
      | some parsed => ValueKind.i64 parsed
      | none =>
        if f64Parseable value then ValueKind.float value
        else listBranch s.list_separator s.list_parse_keys processed_key value
  else ValueKind.string value

/-- The loop body of `collect`: process one filtered entry and insert it. -/
def collectStep (s : SafeEnvironment)
    (m : List (Str × Value)) (kv : Str × Str) : List (Str × Value) :=
  let pk := processKey s kv.1
  mapInsert pk (Value.mk (some uri) (inferValue s pk kv.2)) m

/-- The result mapping built by `collect`. -/
def collectList (s : SafeEnvironment) : List (Str × Value) :=
  s.filtered_env.foldl (collectStep s) []

/-- Model of `Source::collect` for `SafeEnvironment` (the code always
ends in `Ok(m)`). -/
def SafeEnvironment.collect (s : SafeEnvironment) : Except ConfigError (List (Str × Value)) :=
  Except.ok (collectList s)

/-! ## Concrete inputs used by the claims -/

/-- The two-entry environment of the round-trip example:
`PFX_FOO__BAR=1` and `PFX_BAZ=hello`. -/
def c1Env : List (OsStr × OsStr) :=
  [(OsStr.unicode "PFX_FOO__BAR".toList, OsStr.unicode "1".toList),
   (OsStr.unicode "PFX_BAZ".toList, OsStr.unicode "hello".toList)]

/-- A default-shaped `SafeEnvironment` used as a fallback when destructuring
an `Except` that is in fact always `ok`. -/
def emptySE : SafeEnvironment :=
  { pfx := [], separator := [], prefix_separator := [], try_parsing := false,
    list_separator := none, list_parse_keys := none, filtered_env := [] }

/-- The `SafeEnvironment` built from `c1Env` with prefix `PFX` and an
always-true predicate. -/
def c1SE : SafeEnvironment :=
  match with_prefix_and_filter c1Env "PFX".toList (fun _ => true) with
  | .ok se => se
  | .error _ => emptySE

/-- An environment with two distinct raw keys (`PFX_FOO=1`, `PFX_Foo=2`)
that normalize to the same processed key `foo`. -/
def c9Env : List (OsStr × OsStr) :=
  [(OsStr.unicode "PFX_FOO".toList, OsStr.unicode "1".toList),
   (OsStr.unicode "PFX_Foo".toList, OsStr.unicode "2".toList)]

/-- The `SafeEnvironment` built from `c9Env` with prefix `PFX` and an
always-true predicate. -/
def c9SE : SafeEnvironment :=
  match with_prefix_and_filter c9Env "PFX".toList (fun _ => true) with
  | .ok se => se
  | .error _ => emptySE

/-- The `SafeEnvironment` values reachable through the public API:
construction by `with_prefix_and_filter` followed by any sequence of
builder calls. -/
inductive Reachable : SafeEnvironment → Prop where
  | of_new (envVars : List (OsStr × OsStr)) (p : Str) (filter_fn : Str → Bool)
      (se : SafeEnvironment) :
      with_prefix_and_filter envVars p filter_fn = Except.ok se → Reachable se
  | of_separator (s : SafeEnvironment) (sep : Str) :
      Reachable s → Reachable (s.set_separator sep)
  | of_prefix_separator (s : SafeEnvironment) (sep : Str) :
      Reachable s → Reachable (s.set_prefix_separator sep)
  | of_try_parsing (s : SafeEnvironment) (b : Bool) :
      Reachable s → Reachable (s.set_try_parsing b)
  | of_list_separator (s : SafeEnvironment) (sep : Str) :
      Reachable s → Reachable (s.set_list_separator sep)
  | of_list_parse_key (s : SafeEnvironment) (key : Str) :
      Reachable s → Reachable (s.with_list_parse_key key)

/-- Key normalization as the specification words it (the refinement model
compared against `processKey`): lower-case the raw key; if it starts with
`lower(prefix) + prefix_separator`, strip that; then, if the key separator
is non-empty, replace every occurrence of it with the path delimiter `.`. -/
def spec_processKey (p prefSep keySep raw : Str) : Str :=
  let lowered := lowerStr raw
  let pat := lowerStr p ++ prefSep
  let stripped := if pat.isPrefixOf lowered then lowered.drop pat.length else lowered
  if keySep = [] then stripped else replaceStr keySep ['.'] stripped

/-- `c1SE` with the processed key `foo.bar` registered for list parsing
(used to exercise the list branch of the inference). -/
def c3SE : SafeEnvironment := c1SE.with_list_parse_key "foo.bar".toList

/-- `c1SE` with `try_parsing` disabled. -/
def c6SE : SafeEnvironment := c1SE.set_try_parsing false

/-! ## Helper lemmas -/

/-- A membership in a replace-or-append insertion is the inserted binding
or a membership in the original list. -/
theorem mem_mapInsert {α : Type} {k k2 : Str} {v v2 : α} {m : List (Str × α)}
    (h : (k, v) ∈ mapInsert k2 v2 m) : (k = k2 ∧ v = v2) ∨ (k, v) ∈ m := by
  induction m with
  | nil =>
    simp only [mapInsert, List.mem_singleton, Prod.mk.injEq] at h
    exact Or.inl h
  | cons hd tl ih =>
    obtain ⟨hk, hv⟩ := hd
    simp only [mapInsert] at h
    split at h
    · rcases List.mem_cons.mp h with h1 | h1
      · simp only [Prod.mk.injEq] at h1
        exact Or.inl h1
      · exact Or.inr (List.mem_cons_of_mem _ h1)
    · rcases List.mem_cons.mp h with h1 | h1
      · exact Or.inr (h1 ▸ List.mem_cons_self _ _)
      · rcases ih h1 with h2 | h2
        · exact Or.inl h2
        · exact Or.inr (List.mem_cons_of_mem _ h2)

/-- Memberships in a left fold of a step function are in the accumulator or
produced by one element of the list, provided every step only adds
memberships satisfying `P`. -/
theorem mem_foldl_of_step {α β : Type} {step : List (Str × α) → β → List (Str × α)}
    {P : β → Str × α → Prop}
    (hstep : ∀ m e kv, kv ∈ step m e → kv ∈ m ∨ P e kv)
    (l : List β) (acc : List (Str × α)) (kv : Str × α)
    (h : kv ∈ l.foldl step acc) : kv ∈ acc ∨ ∃ e ∈ l, P e kv := by
  induction l generalizing acc with
  | nil => exact Or.inl h
  | cons e es ih =>
    rcases ih (step acc e) h with h1 | h1
    · rcases hstep acc e kv h1 with h2 | h2
      · exact Or.inl h2
      · exact Or.inr ⟨e, List.mem_cons_self _ _, h2⟩
    · obtain ⟨e2, he2, hp⟩ := h1
      exact Or.inr ⟨e2, List.mem_cons_of_mem _ he2, hp⟩

/-- One `collect` loop step only adds the processed binding of its entry. -/
theorem collectStep_mem (s : SafeEnvironment) (m : List (Str × Value))
    (e : Str × Str) (kv : Str × Value) (h : kv ∈ collectStep s m e) :
    kv ∈ m ∨
      (kv.1 = processKey s e.1 ∧
        kv.2 = Value.mk (some uri) (inferValue s (processKey s e.1) e.2)) := by
  obtain ⟨k, v⟩ := kv
  simp only [collectStep] at h
  rcases mem_mapInsert h with h1 | h1
  · exact Or.inr h1
  · exact Or.inl h1

/-- One filtering loop step only adds a Unicode entry that passed the
prefix check and the predicate. -/
theorem filterStep_mem (p : Str) (filter_fn : Str → Bool) (m : List (Str × Str))
    (e : OsStr × OsStr) (kv : Str × Str) (h : kv ∈ filterStep p filter_fn m e) :
    kv ∈ m ∨
      (e = (OsStr.unicode kv.1, OsStr.unicode kv.2) ∧
        (p ++ ['_']).isPrefixOf kv.1 = true ∧
        filter_fn (kv.1.drop (p.length + 1)) = true) := by
  obtain ⟨ek, ev⟩ := e
  obtain ⟨k, v⟩ := kv
  cases ek with
  | nonUnicode tag => exact Or.inl h
  | unicode ks =>
    simp only [filterStep, OsStr.to_str] at h
    split at h
    · split at h
      · cases ev with
        | nonUnicode tag => exact Or.inl h
        | unicode vs =>
          rcases mem_mapInsert h with h1 | h1
          · obtain ⟨hk, hv⟩ := h1
            subst hk
            subst hv
            refine Or.inr ⟨rfl, ?_, ?_⟩ <;> assumption
          · exact Or.inl h1
      · exact Or.inl h
    · exact Or.inl h

/-- Every binding of the result mapping comes from one filtered entry:
its key is that entry's processed key and its value the inferred value. -/
theorem mem_collectList (s : SafeEnvironment) (k : Str) (v : Value)
    (h : (k, v) ∈ collectList s) :
    ∃ e ∈ s.filtered_env,
      k = processKey s e.1 ∧
        v = Value.mk (some uri) (inferValue s (processKey s e.1) e.2) := by
  rcases mem_foldl_of_step (collectStep_mem s) s.filtered_env [] (k, v) h with h1 | h1
  · cases h1
  · obtain ⟨e, he, hp1, hp2⟩ := h1
    exact ⟨e, he, hp1, hp2⟩

/-- Every entry of the filtered snapshot comes from a Unicode raw entry
that passed the prefix check and the predicate. -/
theorem mem_filteredEnv (envVars : List (OsStr × OsStr)) (p : Str)
    (filter_fn : Str → Bool) (kv : Str × Str)
    (h : kv ∈ envVars.foldl (filterStep p filter_fn) []) :
    (OsStr.unicode kv.1, OsStr.unicode kv.2) ∈ envVars ∧
      (p ++ ['_']).isPrefixOf kv.1 = true ∧
      filter_fn (kv.1.drop (p.length + 1)) = true := by
  rcases mem_foldl_of_step (filterStep_mem p filter_fn) envVars [] kv h with h1 | h1
  · cases h1
  · obtain ⟨e, he, hp⟩ := h1
    exact ⟨hp.1 ▸ he, hp.2.1, hp.2.2⟩

/-- `Char.ofNat` round-trips through `toNat` below the surrogate range. -/
theorem toNat_charOfNat {n : Nat} (h : n < 55296) : (Char.ofNat n).toNat = n := by
  simp [Char.ofNat, Nat.isValidChar, Char.toNat, h, Char.ofNatAux, UInt32.toNat,
    BitVec.toNat_ofNatLt]

/-- The output of `lowerChar` is never an upper-case ASCII letter. -/
theorem lowerChar_not_upper (c : Char) :
    (65 ≤ (lowerChar c).toNat && (lowerChar c).toNat ≤ 90) = false := by
  unfold lowerChar
  by_cases h : (65 ≤ c.toNat && c.toNat ≤ 90) = true
  · rw [if_pos h]
    have hb : 65 ≤ c.toNat ∧ c.toNat ≤ 90 := by simpa using h
    have h32 : (Char.ofNat (c.toNat + 32)).toNat = c.toNat + 32 :=
      toNat_charOfNat (by omega)
    simp [h32]
    omega
  · rw [if_neg h]
    simp only [Bool.and_eq_true, decide_eq_true_eq, not_and, not_le] at h
    simp only [Bool.and_eq_false_iff, decide_eq_false_iff_not, not_le]
    omega

/-- ASCII lowercasing is idempotent. -/
theorem lowerChar_idem (c : Char) : lowerChar (lowerChar c) = lowerChar c := by
  conv_lhs => rw [lowerChar]
  rw [lowerChar_not_upper c]
  simp

/-- Every character of a lowercased string is fixed by lowercasing. -/
theorem lowerStr_fixed {s : Str} {c : Char} (h : c ∈ lowerStr s) :
    lowerChar c = c := by
  obtain ⟨d, _, hd⟩ := List.mem_map.mp h
  rw [← hd]
  exact lowerChar_idem d

/-- Characters of a replacement's output come from the replacement string
or from the input. -/
theorem replaceGo_mem {pat rep : Str} {c : Char} :
    ∀ {fuel : Nat} {s : Str}, c ∈ replaceGo pat rep fuel s → c ∈ rep ∨ c ∈ s := by
  intro fuel
  induction fuel with
  | zero =>
    intro s h
    cases s with
    | nil => simp [replaceGo] at h
    | cons a l => exact Or.inr h
  | succ n ih =>
    intro s h
    cases s with
    | nil => simp [replaceGo] at h
    | cons a l =>
      simp only [replaceGo] at h
      split at h
      · rcases List.mem_append.mp h with h1 | h1
        · exact Or.inl h1
        · rcases ih h1 with h2 | h2
          · exact Or.inl h2
          · exact Or.inr (List.mem_cons_of_mem _ (List.mem_of_mem_drop h2))
      · rcases List.mem_cons.mp h with h1 | h1
        · exact Or.inr (h1 ▸ List.mem_cons_self _ _)
        · rcases ih h1 with h2 | h2
          · exact Or.inl h2
          · exact Or.inr (List.mem_cons_of_mem _ h2)

/-- Every character of a processed key is fixed by lowercasing: processed
keys are lower-case. -/
theorem processKey_lower (s : SafeEnvironment) (raw : Str) :
    ∀ c ∈ processKey s raw, lowerChar c = c := by
  intro c hc
  have base : ∀ x ∈ (if (lowerStr s.pfx ++ s.prefix_separator).isPrefixOf (lowerStr raw) then
      (lowerStr raw).drop (lowerStr s.pfx ++ s.prefix_separator).length
    else lowerStr raw), lowerChar x = x := by
    intro x hx
    split at hx
    · exact lowerStr_fixed (List.mem_of_mem_drop hx)
    · exact lowerStr_fixed hx
  simp only [processKey] at hc
  split at hc
  · exact base c hc
  · rcases replaceGo_mem hc with h1 | h1
    · rw [List.mem_singleton.mp h1]
      rfl
    · exact base c h1

/-- The key normalization of the code agrees with the specification's
wording of it. -/
theorem processKey_eq_spec (s : SafeEnvironment) (raw : Str) :
    processKey s raw = spec_processKey s.pfx s.prefix_separator s.separator raw := by
  unfold processKey spec_processKey
  cases hsep : s.separator with
  | nil => simp
  | cons a l => simp

/-- A successful signed-digit parse implies a non-empty all-digit run. -/
theorem i64OfDigits_some {neg : Bool} {ds : Str} {n : Int}
    (h : i64OfDigits neg ds = some n) : ds ≠ [] ∧ ds.all isDigitChar = true := by
  unfold i64OfDigits at h
  split at h
  · cases h
  · split at h
    · constructor <;> assumption
    · cases h

/-- A digit is fixed by ASCII lowercasing. -/
theorem lowerChar_digit {c : Char} (h : isDigitChar c = true) : lowerChar c = c := by
  simp only [isDigitChar, Bool.and_eq_true, decide_eq_true_eq] at h
  rw [lowerChar, if_neg]
  simp only [Bool.and_eq_true, decide_eq_true_eq, not_and, not_le]
  omega

/-- A digit is neither `t` nor `f`. -/
theorem digit_ne_tf {c : Char} (h : isDigitChar c = true) : c ≠ 't' ∧ c ≠ 'f' := by
  constructor <;> intro he <;> rw [he] at h <;> exact absurd h (by decide)

/-- The boolean literal test fails on any string whose head is neither
`t` nor `f`. -/
theorem parse_bool_cons_ne {x : Char} {xs : Str} (h1 : x ≠ 't') (h2 : x ≠ 'f') :
    parse_bool (x :: xs) = none := by
  simp [parse_bool, h1, h2]

/-- Priority separation: a string accepted by the i64 parser is not a
boolean literal, even after lowercasing. -/
theorem parse_bool_of_parse_i64 {v : Str} {n : Int} (h : parse_i64 v = some n) :
    parse_bool (lowerStr v) = none := by
  cases v with
  | nil => cases h
  | cons c r =>
    by_cases h1 : c = '+'
    · rw [h1]
      exact parse_bool_cons_ne (by decide) (by decide)
    · by_cases h2 : c = '-'
      · rw [h2]
        exact parse_bool_cons_ne (by decide) (by decide)
      · have hd : isDigitChar c = true := by
          rw [parse_i64, if_neg h1, if_neg h2] at h
          obtain ⟨-, hall⟩ := i64OfDigits_some h
          exact List.all_eq_true.mp hall c (List.mem_cons_self _ _)
        obtain ⟨ht, hf⟩ := digit_ne_tf hd
        have hfix : lowerChar c = c := lowerChar_digit hd
        show parse_bool (lowerChar c :: lowerStr r) = none
        rw [hfix]
        exact parse_bool_cons_ne ht hf

/-- C1: with environment entries `PFX_FOO__BAR=1` and `PFX_BAZ=hello`,
prefix `PFX`, default separators, `try_parsing` on and a predicate
accepting every suffix, construction succeeds and `collect` returns
exactly the mapping `{"foo.bar" ↦ Integer 1, "baz" ↦ String "hello"}`. -/
theorem c1_round_trip :
    with_prefix_and_filter c1Env "PFX".toList (fun _ => true) = Except.ok c1SE ∧
      c1SE.collect = Except.ok
        [("foo.bar".toList, Value.mk (some uri) (ValueKind.i64 1)),
         ("baz".toList, Value.mk (some uri) (ValueKind.string "hello".toList))] :=
  ⟨rfl, rfl⟩

/-- C7: construction and collection always return the success variant:
`with_prefix_and_filter` is `Except.ok` on every environment, prefix and
predicate, and `collect` is `Except.ok` on every `SafeEnvironment`. -/
theorem c7_never_errors :
    (∀ (envVars : List (OsStr × OsStr)) (p : Str) (filter_fn : Str → Bool),
      ∃ se, with_prefix_and_filter envVars p filter_fn = Except.ok se) ∧
    (∀ s : SafeEnvironment, ∃ m, s.collect = Except.ok m) := by
  constructor
  · intro envVars p filter_fn
    exact ⟨_, rfl⟩
  · intro s
    exact ⟨_, rfl⟩

/-- C8: `collect` is deterministic and idempotent over a fixed
`SafeEnvironment` value: any two invocations return the same mapping.
(In the embedding `collect` is a function of the `SafeEnvironment` value
alone, which is exactly the no-mutation reading: the Rust method takes
`&self` and has no interior mutability, so the snapshot and configuration
are unchanged by a call.) -/
theorem c8_deterministic (s : SafeEnvironment) (m1 m2 : List (Str × Value))
    (h1 : s.collect = Except.ok m1) (h2 : s.collect = Except.ok m2) : m1 = m2 := by
  rw [h1] at h2
  exact (Except.ok.injEq _ _).mp h2

/-- Witness for C8 at a concrete input: the round-trip environment. -/
theorem c8_deterministic_witness :
    c1SE.collect = Except.ok (collectList c1SE) ∧ collectList c1SE = collectList c1SE :=
  ⟨rfl, c8_deterministic c1SE (collectList c1SE) (collectList c1SE) rfl rfl⟩

/-- C9: the distinct snapshot keys `PFX_FOO` and `PFX_Foo` both survive the
case-sensitive filter (snapshot size 2), both normalize to `foo`, and the
result mapping holds exactly one entry for `foo` carrying the later
entry's value — strictly fewer entries than the snapshot. -/
theorem c9_key_collision :
    with_prefix_and_filter c9Env "PFX".toList (fun _ => true) = Except.ok c9SE ∧
      c9SE.filtered_env =
        [("PFX_FOO".toList, "1".toList), ("PFX_Foo".toList, "2".toList)] ∧
      c9SE.collect = Except.ok [("foo".toList, Value.mk (some uri) (ValueKind.i64 2))] :=
  ⟨rfl, rfl, rfl⟩

/-- C10: every `SafeEnvironment` reachable through the public API has
`list_separator = Some _`: construction sets `Some ","` and every builder
either preserves the field or replaces it with another `Some`, so the
`collect` branch for an absent list separator is unreachable. -/
theorem c10_list_separator_some (s : SafeEnvironment) (h : Reachable s) :
    s.list_separator.isSome = true := by
  induction h with
  | of_new envVars p filter_fn se hok =>
    have : se = (with_prefix_and_filter envVars p filter_fn).toOption.getD emptySE := by
      rw [hok]; rfl
    rw [this]; rfl
  | of_separator s sep _ ih => exact ih
  | of_prefix_separator s sep _ ih => exact ih
  | of_try_parsing s b _ ih => exact ih
  | of_list_separator s sep _ _ => rfl
  | of_list_parse_key s key _ ih => exact ih

/-- Witness for C10 at a concrete input: the `SafeEnvironment` built from
the round-trip environment is reachable and its list separator is set. -/
theorem c10_list_separator_some_witness : c1SE.list_separator.isSome = true :=
  c10_list_separator_some c1SE
    (Reachable.of_new c1Env "PFX".toList (fun _ => true) c1SE rfl)

/-- C2: with `try_parsing` enabled, inference runs boolean first, then
i64: every case-insensitive boolean literal yields `Boolean` with the
correct truth value, and every string the i64 parser accepts yields
`I64` of that value (never `Float`), because a parsed integer is never a
boolean literal and the float branch is only reached after i64 fails. -/
theorem c2_parse_priority (s : SafeEnvironment) (k v : Str)
    (ht : s.try_parsing = true) :
    (lowerStr v = "true".toList → inferValue s k v = ValueKind.boolean true) ∧
    (lowerStr v = "false".toList → inferValue s k v = ValueKind.boolean false) ∧
    (∀ n : Int, parse_i64 v = some n → inferValue s k v = ValueKind.i64 n) := by
  refine ⟨?_, ?_, ?_⟩
  · intro hv
    rw [inferValue, if_pos ht, hv]
    rfl
  · intro hv
    rw [inferValue, if_pos ht, hv]
    rfl
  · intro n hn
    rw [inferValue, if_pos ht, parse_bool_of_parse_i64 hn, hn]

/-- Witness for C2: `TRUE` parses as Boolean true and `42` as Integer 42
under the round-trip configuration. -/
theorem c2_parse_priority_witness :
    inferValue c1SE [] "TRUE".toList = ValueKind.boolean true ∧
      inferValue c1SE [] "42".toList = ValueKind.i64 42 :=
  ⟨(c2_parse_priority c1SE [] "TRUE".toList rfl).1 rfl,
   (c2_parse_priority c1SE [] "42".toList rfl).2.2 42 rfl⟩

/-- C3: the list branch runs only with a configured list separator, a
configured list-parse key-set and a processed key in that set, and then
splits an otherwise-unparsed value into string elements; a key outside
the set keeps the value as one string; and any `Array` result implies all
three conditions held. -/
theorem c3_list_parsing (s : SafeEnvironment) (k v : Str) :
    (∀ sep keys, s.try_parsing = true → s.list_separator = some sep →
      s.list_parse_keys = some keys → keys.contains k = true →
      parse_bool (lowerStr v) = none → parse_i64 v = none →
      f64Parseable v = false →
      inferValue s k v = ValueKind.array ((splitStr sep v).map fun piece =>
        Value.mk (some uri) (ValueKind.string piece))) ∧
    (∀ keys, s.try_parsing = true → s.list_parse_keys = some keys →
      keys.contains k = false →
      parse_bool (lowerStr v) = none → parse_i64 v = none →
      f64Parseable v = false →
      inferValue s k v = ValueKind.string v) ∧
    (∀ vs, inferValue s k v = ValueKind.array vs →
      ∃ sep keys, s.list_separator = some sep ∧ s.list_parse_keys = some keys ∧
        keys.contains k = true) := by
  refine ⟨?_, ?_, ?_⟩
  · intro sep keys ht hsep hkeys hmem hb hi hf
    rw [inferValue, if_pos ht, hb, hi, hf, hsep, hkeys]
    simp only [listBranch]
    rw [hmem]
    rfl
  · intro keys ht hkeys hmem hb hi hf
    rw [inferValue, if_pos ht, hb, hi, hf, hkeys]
    cases hsep : s.list_separator with
    | none => rfl
    | some sep =>
      simp only [listBranch]
      rw [hmem]
      rfl
  · intro vs h
    cases ht : s.try_parsing with
    | false => rw [inferValue, if_neg (by simp [ht])] at h; cases h
    | true =>
      rw [inferValue, if_pos ht] at h
      cases hb : parse_bool (lowerStr v) with
      | some b => rw [hb] at h; cases h
      | none =>
        rw [hb] at h
        cases hi : parse_i64 v with
        | some m => rw [hi] at h; cases h
        | none =>
          rw [hi] at h
          cases hf : f64Parseable v with
          | true => rw [hf] at h; simp at h
          | false =>
            rw [hf] at h
            simp only [Bool.false_eq_true, if_false] at h
            cases hsep : s.list_separator with
            | none => rw [hsep] at h; simp only [listBranch] at h; cases h
            | some sep =>
              rw [hsep] at h
              cases hkeys : s.list_parse_keys with
              | none => rw [hkeys] at h; simp only [listBranch] at h; cases h
              | some keys =>
                rw [hkeys] at h
                simp only [listBranch] at h
                cases hmem : keys.contains k with
                | false => rw [hmem] at h; simp at h
                | true => exact ⟨sep, keys, rfl, rfl, hmem⟩

/-- Witness for C3: under `c3SE` (key `foo.bar` registered), the value
`a,b,c` splits into three strings at key `foo.bar` and stays one string
at key `baz`. -/
theorem c3_list_parsing_witness :
    inferValue c3SE "foo.bar".toList "a,b,c".toList =
      ValueKind.array
        [Value.mk (some uri) (ValueKind.string "a".toList),
         Value.mk (some uri) (ValueKind.string "b".toList),
         Value.mk (some uri) (ValueKind.string "c".toList)] ∧
    inferValue c3SE "baz".toList "a,b,c".toList =
      ValueKind.string "a,b,c".toList :=
  ⟨(c3_list_parsing c3SE "foo.bar".toList "a,b,c".toList).1 ",".toList
      ["foo.bar".toList] rfl rfl rfl rfl rfl rfl rfl,
   (c3_list_parsing c3SE "baz".toList "a,b,c".toList).2.1
      ["foo.bar".toList] rfl rfl rfl rfl rfl rfl⟩

/-- C4: every binding of the result mapping derives from a raw entry whose
key and value are valid Unicode, whose key starts with `prefix + "_"`, and
whose suffix the predicate accepts; the binding's key is the processed
form of that raw key.  In particular a raw key without the prefix never
contributes to the result mapping. -/
theorem c4_provenance (envVars : List (OsStr × OsStr)) (p : Str)
    (filter_fn : Str → Bool) (s : SafeEnvironment)
    (hs : with_prefix_and_filter envVars p filter_fn = Except.ok s)
    (k : Str) (v : Value) (hm : (k, v) ∈ collectList s) :
    ∃ rk rv, (OsStr.unicode rk, OsStr.unicode rv) ∈ envVars ∧
      (p ++ ['_']).isPrefixOf rk = true ∧
      filter_fn (rk.drop (p.length + 1)) = true ∧
      k = processKey s rk := by
  have hse : s.filtered_env = envVars.foldl (filterStep p filter_fn) [] := by
    injection hs with h
    rw [← h]
  obtain ⟨e, he, hk, -⟩ := mem_collectList s k v hm
  rw [hse] at he
  obtain ⟨henv, hpre, hfil⟩ := mem_filteredEnv envVars p filter_fn e he
  exact ⟨e.1, e.2, henv, hpre, hfil, hk⟩

/-- Witness for C4: the `foo.bar` binding of the round-trip example traces
back to the raw entry `PFX_FOO__BAR`. -/
theorem c4_provenance_witness :
    ∃ rk rv, (OsStr.unicode rk, OsStr.unicode rv) ∈ c1Env ∧
      ("PFX".toList ++ ['_']).isPrefixOf rk = true ∧
      (fun _ => true : Str → Bool) (rk.drop ("PFX".toList.length + 1)) = true ∧
      "foo.bar".toList = processKey c1SE rk :=
  c4_provenance c1Env "PFX".toList (fun _ => true) c1SE rfl "foo.bar".toList
    (Value.mk (some uri) (ValueKind.i64 1)) (List.Mem.head _)

/-- C5: every key of the result mapping is the spec-worded normalization
(lower-case, prefix plus prefix separator stripped when present, key
separator rewritten to `.` when non-empty) of some snapshot key, and is
lower-case (fixed by lowercasing character by character). -/
theorem c5_key_normalization (s : SafeEnvironment) (k : Str) (v : Value)
    (hm : (k, v) ∈ collectList s) :
    (∃ rk rv, (rk, rv) ∈ s.filtered_env ∧
      k = spec_processKey s.pfx s.prefix_separator s.separator rk) ∧
    ∀ c ∈ k, lowerChar c = c := by
  obtain ⟨e, he, hk, -⟩ := mem_collectList s k v hm
  refine ⟨⟨e.1, e.2, he, ?_⟩, ?_⟩
  · rw [hk, processKey_eq_spec]
  · rw [hk]
    exact processKey_lower s e.1

/-- Witness for C5: the key `foo.bar` of the round-trip example. -/
theorem c5_key_normalization_witness :
    (∃ rk rv, (rk, rv) ∈ c1SE.filtered_env ∧
      "foo.bar".toList =
        spec_processKey c1SE.pfx c1SE.prefix_separator c1SE.separator rk) ∧
    ∀ c ∈ "foo.bar".toList, lowerChar c = c :=
  c5_key_normalization c1SE "foo.bar".toList
    (Value.mk (some uri) (ValueKind.i64 1)) (List.Mem.head _)

/-- C6: with `try_parsing` disabled, every binding of the result mapping
is the `String` of its raw value, unmodified, whatever the list
configuration. -/
theorem c6_no_parsing (s : SafeEnvironment) (hp : s.try_parsing = false)
    (k : Str) (v : Value) (hm : (k, v) ∈ collectList s) :
    ∃ rk rv, (rk, rv) ∈ s.filtered_env ∧ k = processKey s rk ∧
      v = Value.mk (some uri) (ValueKind.string rv) := by
  obtain ⟨e, he, hk, hv⟩ := mem_collectList s k v hm
  refine ⟨e.1, e.2, he, hk, ?_⟩
  rw [hv, inferValue, if_neg (by simp [hp])]

/-- Witness for C6: under `c6SE` the numeric-looking value `1` stays the
string `1`. -/
theorem c6_no_parsing_witness :
    ∃ rk rv, (rk, rv) ∈ c6SE.filtered_env ∧
      "foo.bar".toList = processKey c6SE rk ∧
      Value.mk (some uri) (ValueKind.string "1".toList) =
        Value.mk (some uri) (ValueKind.string rv) :=
  c6_no_parsing c6SE rfl "foo.bar".toList
    (Value.mk (some uri) (ValueKind.string "1".toList)) (List.Mem.head _)

end SafeEnv
